import Mathlib

/-!
Shallow embedding of the slatec-pchip library (src/index.ts) over exact
rational arithmetic.  Each definition mirrors one source function:

* `dpchst`         — sign comparator (DPCHST)
* `dpchim`         — shape-preserving derivative estimator (DPCHIM);
                     its interior for-loop is `dpchimLoop`, driven by a fuel
                     argument equal to the number of loop iterations `n - 2`
* `lowerBound`     — binary search; the while loop is `lowerBoundAux`, with a
                     fuel argument bounding the number of iterations (the
                     search halves `high - low`, so `arr.length` iterations
                     always suffice and the fuel never changes the result)
* `piecewiseCubic` — piecewise cubic Hermite evaluator; its per-interval body
                     is `fillInterval`, and the JS array-slot assignment
                     `yI[j + leftIndex] = …` is `writeAt`.  Unassigned slots
                     of `new Array(xI.length)` are modelled as `none`.
* `pchip`, `Pchip` — the two facades.

Array reads `a[i]` are modelled as `List.getD a i 0`; every read reachable
under the claims' validity hypotheses is in bounds, so the default is inert.
-/

namespace SlatecPchip

/-- Sign comparator, port of SLATEC DPCHST:
1 if the arguments have the same (strict) sign, 0 if either is zero,
-1 if the signs differ. -/
def dpchst (arg1 arg2 : ℚ) : Int :=
  if arg1 = 0 ∨ arg2 = 0 then 0
  else if 0 < arg1 then (if 0 < arg2 then 1 else -1)
  else (if 0 < arg2 then -1 else 1)

/-- Validation loop of `dpchim`: `true` iff no adjacent pair has
`x[i] <= x[i-1]`, i.e. the list is strictly increasing. -/
def strictIncr : List ℚ → Bool
  | a :: b :: rest => if b ≤ a then false else strictIncr (b :: rest)
  | _ => true

/-- Width of interval `j`: `x[j+1] - x[j]`. -/
def hAt (x : List ℚ) (j : Nat) : ℚ := x.getD (j+1) 0 - x.getD j 0

/-- Secant slope of interval `j`: `(y[j+1] - y[j]) / (x[j+1] - x[j])`. -/
def delAt (x y : List ℚ) (j : Nat) : ℚ := (y.getD (j+1) 0 - y.getD j 0) / hAt x j

/-- Body of the interior-point branch of `dpchim`'s loop: the Brodlie
modification of the Butland formula when the flanking secants have the same
strict sign, else zero. -/
def brodlie (h1 h2 hsum del1 del2 : ℚ) : ℚ :=
  if 0 < dpchst del1 del2 then
    let hsumt3 := hsum * 3
    let w1 := (hsum + h1) / hsumt3
    let w2 := (hsum + h2) / hsumt3
    let dmax := max |del1| |del2|
    let dmin := min |del1| |del2|
    let drat1 := del1 / dmax
    let drat2 := del2 / dmax
    dmin / (w1 * drat1 + w2 * drat2)
  else 0

/-- Interior slope of `dpchim` at knot `i` (for `1 ≤ i ≤ n - 2`), expressed
through the flanking interval widths and secants. -/
def islope (x y : List ℚ) (i : Nat) : ℚ :=
  brodlie (hAt x (i-1)) (hAt x i) (hAt x (i-1) + hAt x i)
    (delAt x y (i-1)) (delAt x y i)

/-- Left-endpoint slope of `dpchim`: non-centered three-point formula with the
shape-preserving adjustment applied afterwards. -/
def endLeft (h1 h2 del1 del2 : ℚ) : ℚ :=
  let hsum := h1 + h2
  let w1 := (h1 + hsum) / hsum
  let w2 := -h1 / hsum
  let draw := w1 * del1 + w2 * del2
  if dpchst draw del1 < 0 then 0
  else if dpchst del1 del2 < 0 then
    let dmax := 3 * del1
    if |dmax| < |draw| then dmax else draw
  else draw

/-- Right-endpoint slope of `dpchim`, computed from the loop's final state
`(h2, hsum, del1, del2)`. -/
def endRightSt : ℚ × ℚ × ℚ × ℚ → ℚ
  | (h2, hsum, del1, del2) =>
    let w1 := -h2 / hsum
    let w2 := (h2 + hsum) / hsum
    let draw := w1 * del1 + w2 * del2
    if dpchst draw del2 < 0 then 0
    else if dpchst del1 del2 < 0 then
      let dmax := 3 * del2
      if |dmax| < |draw| then dmax else draw
    else draw

/-- Interior loop of `dpchim` (`for (let i = 1; i < n - 1; ++i)`), with the
iteration count as fuel.  Carries the running `(h1, del1, h2, del2, hsum)`
state exactly as the source does (shift when `i > 1`) and returns the interior
slopes together with the final `(h2, hsum, del1, del2)` used for `d[n-1]`. -/
def dpchimLoop (x y : List ℚ) : Nat → Nat → ℚ → ℚ → ℚ → ℚ → ℚ →
    List ℚ × (ℚ × ℚ × ℚ × ℚ)
  | _, 0, _h1, del1, h2, del2, hsum => ([], (h2, hsum, del1, del2))
  | i, Nat.succ fuel, h1, del1, h2, del2, hsum =>
    if 1 < i then
      let h1n := h2
      let h2n := x.getD (i+1) 0 - x.getD i 0
      let hsumn := h1n + h2n
      let del1n := del2
      let del2n := (y.getD (i+1) 0 - y.getD i 0) / h2n
      let di := brodlie h1n h2n hsumn del1n del2n
      let rest := dpchimLoop x y (i+1) fuel h1n del1n h2n del2n hsumn
      (di :: rest.1, rest.2)
    else
      let di := brodlie h1 h2 hsum del1 del2
      let rest := dpchimLoop x y (i+1) fuel h1 del1 h2 del2 hsum
      (di :: rest.1, rest.2)

/-- The `n ≥ 3` branch of `dpchim`: left endpoint, interior loop, right
endpoint. -/
def dpchim3 (x y : List ℚ) : List ℚ :=
  let r := dpchimLoop x y 1 (x.length - 2) (hAt x 0) (delAt x y 0)
    (hAt x 1) (delAt x y 1) (hAt x 0 + hAt x 1)
  endLeft (hAt x 0) (hAt x 1) (delAt x y 0) (delAt x y 1) ::
    (r.1 ++ [endRightSt r.2])

/-- Port of SLATEC DPCHIM: validation, then the two-point shortcut or the
general three-point/Brodlie computation.  Thrown JS errors are modelled as
`Except.error` with the source's message strings. -/
def dpchim (x y : List ℚ) : Except String (List ℚ) :=
  if x.length ≠ y.length then .error "input array lengths must match"
  else if x.length < 2 then .error "number of data points less than two"
  else if ¬ strictIncr x then .error "x-array not strictly increasing"
  else if x.length = 2 then
    let deriv := (y.getD 1 0 - y.getD 0 0) / (x.getD 1 0 - x.getD 0 0)
    .ok [deriv, deriv]
  else .ok (dpchim3 x y)

/-- While loop of `lowerBound`, with fuel bounding the iteration count.  When
the fuel is exhausted the loop has already reached `low = high` (each
iteration shrinks `high - low`), so returning `high` is the loop's own
exit value. -/
def lowerBoundAux (arr : List ℚ) (value : ℚ) : Nat → Nat → Nat → Nat
  | 0, _low, high => high
  | Nat.succ fuel, low, high =>
    if low < high then
      let mid := (low + high) / 2
      if arr.getD mid 0 < value then lowerBoundAux arr value fuel (mid + 1) high
      else lowerBoundAux arr value fuel low mid
    else high

/-- Binary search: position in `arr` at which `value` could be inserted while
maintaining sort order (first index whose element is not less than `value`,
for sorted input). -/
def lowerBound (arr : List ℚ) (value : ℚ) : Nat :=
  if arr.length = 0 then 0
  else lowerBoundAux arr value arr.length 0 arr.length

/-- Hermite cubic of interval `i`, evaluated at `v`, exactly as the map body
of `piecewiseCubic` computes it (same `c`, `d` and Horner form). -/
def hermiteVal (x y m : List ℚ) (i : Nat) (v : ℚ) : ℚ :=
  let dX := x.getD (i+1) 0 - x.getD i 0
  let dY := y.getD (i+1) 0 - y.getD i 0
  let c := (dY / dX - m.getD i 0) / dX
  let d := (m.getD i 0 + m.getD (i+1) 0 - (2 * dY) / dX) / (dX * dX)
  y.getD i 0 + (v - x.getD i 0) *
    (m.getD i 0 + (v - x.getD i 0) * (c + d * (v - x.getD (i+1) 0)))

/-- The `leftIndex` of interval `i` in `piecewiseCubic`. -/
def leftIdx (x xI : List ℚ) (i : Nat) : Nat := lowerBound xI (x.getD i 0)

/-- The (possibly adjusted) `rightIndex` of interval `i` in `piecewiseCubic`:
for the last interval a query exactly equal to the final knot is included.
The JS guard `xI[rightIndex] === x[i+1]` is false out of bounds (`undefined`),
hence the explicit bounds conjunct. -/
def adjRight (x xI : List ℚ) (i : Nat) : Nat :=
  let r := lowerBound xI (x.getD (i+1) 0)
  if i = x.length - 2 ∧ r < xI.length ∧ xI.getD r 0 = x.getD (i+1) 0
  then r + 1 else r

/-- Assignment run `for (j …) yI[j + start] = vals[j]` on the output array. -/
def writeAt : List (Option ℚ) → Nat → List ℚ → List (Option ℚ)
  | [], _, _ => []
  | o :: rest, Nat.succ s, vals => o :: writeAt rest s vals
  | _ :: rest, 0, v :: vs => some v :: writeAt rest 0 vs
  | o :: rest, 0, [] => o :: rest

/-- Body of `piecewiseCubic`'s interval loop for interval `i`: select the
query positions `[leftIndex, rightIndex)`, evaluate the interval's Hermite
cubic on them, and write the results into the output. -/
def fillInterval (x y m xI : List ℚ) (i : Nat) (yI : List (Option ℚ)) :
    List (Option ℚ) :=
  let leftIndex := leftIdx x xI i
  let rightIndex := adjRight x xI i
  let xISubset := (xI.drop leftIndex).take (rightIndex - leftIndex)
  let yISubset := xISubset.map (fun v => hermiteVal x y m i v)
  writeAt yI leftIndex yISubset

/-- Piecewise cubic Hermite evaluation with specified knot derivatives, port
of `piecewiseCubic`; output slots never assigned by any interval remain
`none` (JS `undefined`). -/
def piecewiseCubic (x y m xI : List ℚ) : List (Option ℚ) :=
  (List.range (x.length - 1)).foldl (fun yI i => fillInterval x y m xI i yI)
    (List.replicate xI.length none)

/-- Convenience entry point `pchip` (sequence queries only, as typed in the
source: `xI: number[]`). -/
def pchip (x y xI : List ℚ) : Except String (List (Option ℚ)) :=
  (dpchim x y).map (fun d => piecewiseCubic x y d xI)

/-- The `Pchip` class: knots bound to their one-time-computed derivatives. -/
structure Pchip where
  x : List ℚ
  y : List ℚ
  deriv : List ℚ

/-- Constructor of `Pchip` (may throw through `dpchim`). -/
def Pchip.make (x y : List ℚ) : Except String Pchip :=
  (dpchim x y).map (fun d => ⟨x, y, d⟩)

/-- Argument of `Pchip.evaluate`: a scalar or a sequence of queries. -/
inductive QueryArg
  | scalar (q : ℚ)
  | seq (qs : List ℚ)

/-- Result of `Pchip.evaluate`: a scalar or a sequence of values. -/
inductive QueryRes
  | scalar (r : Option ℚ)
  | seq (rs : List (Option ℚ))

/-- Shape dispatch of `Pchip.evaluate` (the `Array.isArray` branch). -/
def Pchip.evaluate (p : Pchip) : QueryArg → QueryRes
  | .seq qs => .seq (piecewiseCubic p.x p.y p.deriv qs)
  | .scalar q => .scalar ((piecewiseCubic p.x p.y p.deriv [q]).getD 0 none)

/-- Interval index the spec assigns to a query: the interval `[x i, x (i+1))`
containing it, with the last interval closed on the right (clamped to the
nearest interval for out-of-range queries). -/
def containingInterval (x : List ℚ) (v : ℚ) : Nat :=
  let j := lowerBound x v
  min (if j < x.length ∧ x.getD j 0 = v then j else j - 1) (x.length - 2)

/-- Value the spec assigns to one query: the Hermite cubic of the interval
containing it ("locates which interval each query point falls in and
evaluates the cubic Hermite polynomial on that interval"). -/
def pchipValueAt (x y m : List ℚ) (v : ℚ) : ℚ :=
  hermiteVal x y m (containingInterval x v) v

/-! ### Basic facts about the sign comparator -/

theorem dpchst_pos_pos {a b : ℚ} (ha : 0 < a) (hb : 0 < b) : dpchst a b = 1 := by
  unfold dpchst
  rw [if_neg (by push_neg; exact ⟨ne_of_gt ha, ne_of_gt hb⟩), if_pos ha, if_pos hb]

theorem dpchst_neg_neg {a b : ℚ} (ha : a < 0) (hb : b < 0) : dpchst a b = 1 := by
  unfold dpchst
  rw [if_neg (by push_neg; exact ⟨ne_of_lt ha, ne_of_lt hb⟩),
    if_neg (not_lt.mpr ha.le), if_neg (not_lt.mpr hb.le)]

theorem dpchst_one_cases {a b : ℚ} (h : dpchst a b = 1) :
    (0 < a ∧ 0 < b) ∨ (a < 0 ∧ b < 0) := by
  by_cases h0 : a = 0 ∨ b = 0
  · unfold dpchst at h
    rw [if_pos h0] at h
    exact absurd h (by decide)
  · push_neg at h0
    rcases h0.1.lt_or_lt with ha | ha
    · rcases h0.2.lt_or_lt with hb | hb
      · exact Or.inr ⟨ha, hb⟩
      · unfold dpchst at h
        rw [if_neg (by push_neg; exact ⟨h0.1, h0.2⟩), if_neg (not_lt.mpr ha.le),
          if_pos hb] at h
        exact absurd h (by decide)
    · rcases h0.2.lt_or_lt with hb | hb
      · unfold dpchst at h
        rw [if_neg (by push_neg; exact ⟨h0.1, h0.2⟩), if_pos ha,
          if_neg (not_lt.mpr hb.le)] at h
        exact absurd h (by decide)
      · exact Or.inl ⟨ha, hb⟩

theorem dpchst_not_pos {a b : ℚ} (h : dpchst a b = -1 ∨ a = 0 ∨ b = 0) :
    ¬ 0 < dpchst a b := by
  rcases h with h | h | h
  · rw [h]; decide
  · unfold dpchst; rw [if_pos (Or.inl h)]; decide
  · unfold dpchst; rw [if_pos (Or.inr h)]; decide

theorem nonneg_of_dpchst {a b : ℚ} (h : ¬ dpchst a b < 0) (hb : 0 < b) : 0 ≤ a := by
  by_contra hneg
  push_neg at hneg
  have : dpchst a b = -1 := by
    unfold dpchst
    rw [if_neg (by push_neg; exact ⟨ne_of_lt hneg, ne_of_gt hb⟩),
      if_neg (not_lt.mpr hneg.le), if_pos hb]
  exact h (by rw [this]; decide)

theorem nonpos_of_dpchst {a b : ℚ} (h : ¬ dpchst a b < 0) (hb : b < 0) : a ≤ 0 := by
  by_contra hpos
  push_neg at hpos
  have : dpchst a b = -1 := by
    unfold dpchst
    rw [if_neg (by push_neg; exact ⟨ne_of_gt hpos, ne_of_lt hb⟩),
      if_pos hpos, if_neg (not_lt.mpr hb.le)]
  exact h (by rw [this]; decide)

/-! ### List indexing helpers -/

theorem getD_map_range (g : Nat → ℚ) {m j : Nat} (h : j < m) :
    ((List.range m).map g).getD j 0 = g j := by
  rw [List.getD_eq_getElem?_getD, List.getElem?_map, List.getElem?_range h]
  rfl

theorem getD_append_left {α : Type} {l1 l2 : List α} {j : Nat} (h : j < l1.length)
    (d : α) : (l1 ++ l2).getD j d = l1.getD j d := by
  rw [List.getD_eq_getElem?_getD, List.getD_eq_getElem?_getD, List.getElem?_append,
    if_pos h]

theorem getD_oob {α : Type} {l : List α} {j : Nat} (h : l.length ≤ j) (d : α) :
    l.getD j d = d :=
  List.getD_eq_default l d h

/-! ### Monotone lists through `getD` -/

theorem getD_mono_of_adj {l : List ℚ}
    (h : ∀ j < l.length - 1, l.getD j 0 ≤ l.getD (j+1) 0)
    {i j : Nat} (hij : i ≤ j) (hj : j < l.length) : l.getD i 0 ≤ l.getD j 0 := by
  induction j, hij using Nat.le_induction with
  | base => exact le_refl _
  | succ n hn ih => exact le_trans (ih (by omega)) (h n (by omega))

theorem getD_strict_of_adj {l : List ℚ}
    (h : ∀ j < l.length - 1, l.getD j 0 < l.getD (j+1) 0)
    {i j : Nat} (hij : i < j) (hj : j < l.length) : l.getD i 0 < l.getD j 0 := by
  induction j, hij using Nat.le_induction with
  | base => exact h i (by omega)
  | succ n hn ih => exact lt_trans (ih (by omega)) (h n (by omega))

theorem adj_le_of_adj_lt {l : List ℚ}
    (h : ∀ j < l.length - 1, l.getD j 0 < l.getD (j+1) 0) :
    ∀ j < l.length - 1, l.getD j 0 ≤ l.getD (j+1) 0 :=
  fun j hj => (h j hj).le

/-- The `dpchim` validation loop succeeds exactly on strictly increasing data. -/
theorem strictIncr_iff (l : List ℚ) :
    strictIncr l = true ↔ ∀ j < l.length - 1, l.getD j 0 < l.getD (j+1) 0 := by
  match l with
  | [] => simp [strictIncr]
  | [a] => simp [strictIncr]
  | a :: b :: rest =>
    rw [strictIncr]
    constructor
    · intro h j hj
      by_cases hba : b ≤ a
      · rw [if_pos hba] at h; exact absurd h (by simp)
      · rw [if_neg hba] at h
        match j with
        | 0 => simpa using not_le.mp hba
        | Nat.succ j =>
          have := (strictIncr_iff (b :: rest)).mp h j (by simp at hj ⊢; omega)
          simpa using this
    · intro h
      have hba : ¬ b ≤ a := by
        have := h 0 (by simp)
        simp at this
        exact not_le.mpr this
      rw [if_neg hba]
      refine (strictIncr_iff (b :: rest)).mpr ?_
      intro j hj
      have := h (j+1) (by simp at hj ⊢; omega)
      simpa using this

/-! ### Correctness of the binary search -/

theorem lowerBoundAux_bounds (arr : List ℚ) (v : ℚ) :
    ∀ fuel low high, low ≤ high →
      low ≤ lowerBoundAux arr v fuel low high ∧
        lowerBoundAux arr v fuel low high ≤ high := by
  intro fuel
  induction fuel with
  | zero =>
    intro low high h
    exact ⟨h, le_refl _⟩
  | succ fuel ih =>
    intro low high h
    simp only [lowerBoundAux]
    by_cases hlh : low < high
    · rw [if_pos hlh]
      by_cases hm : arr.getD ((low + high) / 2) 0 < v
      · rw [if_pos hm]
        have := ih ((low + high) / 2 + 1) high (by omega)
        exact ⟨by omega, this.2⟩
      · rw [if_neg hm]
        have := ih low ((low + high) / 2) (by omega)
        exact ⟨this.1, by omega⟩
    · rw [if_neg hlh]
      exact ⟨h, le_refl _⟩

theorem lowerBoundAux_spec (arr : List ℚ) (v : ℚ)
    (hmono : ∀ i j, i ≤ j → j < arr.length → arr.getD i 0 ≤ arr.getD j 0) :
    ∀ fuel low high, high - low ≤ fuel → low ≤ high → high ≤ arr.length →
      (∀ j < low, arr.getD j 0 < v) →
      (∀ j, high ≤ j → j < arr.length → v ≤ arr.getD j 0) →
      (∀ j < lowerBoundAux arr v fuel low high, arr.getD j 0 < v) ∧
        (∀ j, lowerBoundAux arr v fuel low high ≤ j → j < arr.length →
          v ≤ arr.getD j 0) := by
  intro fuel
  induction fuel with
  | zero =>
    intro low high hfuel hlh _ hlow hhigh
    have heq : high = low := by omega
    subst heq
    exact ⟨hlow, hhigh⟩
  | succ fuel ih =>
    intro low high hfuel hlh hlen hlow hhigh
    simp only [lowerBoundAux]
    by_cases hlh2 : low < high
    · rw [if_pos hlh2]
      by_cases hm : arr.getD ((low + high) / 2) 0 < v
      · rw [if_pos hm]
        refine ih ((low + high) / 2 + 1) high (by omega) (by omega) hlen ?_ hhigh
        intro j hj
        exact lt_of_le_of_lt (hmono j ((low + high) / 2) (by omega) (by omega)) hm
      · rw [if_neg hm]
        refine ih low ((low + high) / 2) (by omega) (by omega) (by omega) hlow ?_
        intro j hj hjlen
        exact le_trans (not_lt.mp hm) (hmono ((low + high) / 2) j hj hjlen)
    · rw [if_neg hlh2]
      have heq : high = low := by omega
      subst heq
      exact ⟨hlow, hhigh⟩

theorem lowerBound_le_length (arr : List ℚ) (v : ℚ) :
    lowerBound arr v ≤ arr.length := by
  unfold lowerBound
  by_cases h0 : arr.length = 0
  · rw [if_pos h0]; omega
  · rw [if_neg h0]
    exact (lowerBoundAux_bounds arr v arr.length 0 arr.length (by omega)).2

/-- For sorted input, `lowerBound` separates the array at the first element
not less than `value`: everything before is `< value`, everything from it on
is `≥ value`. -/
theorem lowerBound_spec (arr : List ℚ) (v : ℚ)
    (hadj : ∀ j < arr.length - 1, arr.getD j 0 ≤ arr.getD (j+1) 0) :
    (∀ j < lowerBound arr v, arr.getD j 0 < v) ∧
      (∀ j, lowerBound arr v ≤ j → j < arr.length → v ≤ arr.getD j 0) := by
  unfold lowerBound
  by_cases h0 : arr.length = 0
  · rw [if_pos h0]
    exact ⟨fun j hj => absurd hj (by omega), fun j _ hj => absurd hj (by omega)⟩
  · rw [if_neg h0]
    refine lowerBoundAux_spec arr v ?_ arr.length 0 arr.length (by omega) (by omega)
      (le_refl _) (fun j hj => absurd hj (by omega)) (fun j hj hjlen => absurd hjlen (by omega))
    intro i j hij hj
    rcases eq_or_lt_of_le hij with heq | hlt
    · rw [heq]
    · exact getD_mono_of_adj hadj hij hj

theorem lowerBound_le_iff {arr : List ℚ} {v : ℚ}
    (hadj : ∀ j < arr.length - 1, arr.getD j 0 ≤ arr.getD (j+1) 0)
    {k : Nat} (hk : k < arr.length) :
    lowerBound arr v ≤ k ↔ v ≤ arr.getD k 0 := by
  constructor
  · intro h
    exact (lowerBound_spec arr v hadj).2 k h hk
  · intro h
    by_contra hlt
    push_neg at hlt
    exact absurd h (not_le.mpr ((lowerBound_spec arr v hadj).1 k hlt))

theorem lt_lowerBound_iff {arr : List ℚ} {v : ℚ}
    (hadj : ∀ j < arr.length - 1, arr.getD j 0 ≤ arr.getD (j+1) 0)
    {k : Nat} (hk : k < arr.length) :
    k < lowerBound arr v ↔ arr.getD k 0 < v := by
  rw [← not_le, ← not_le, lowerBound_le_iff hadj hk]

/-- For strictly sorted input, `lowerBound` of a present value is its index. -/
theorem lowerBound_eq_of_mem {arr : List ℚ} {v : ℚ}
    (hadj : ∀ j < arr.length - 1, arr.getD j 0 < arr.getD (j+1) 0)
    {k : Nat} (hk : k < arr.length) (hv : arr.getD k 0 = v) :
    lowerBound arr v = k := by
  have hle := adj_le_of_adj_lt hadj
  have h1 : lowerBound arr v ≤ k := (lowerBound_le_iff hle hk).mpr (le_of_eq hv.symm)
  rcases eq_or_lt_of_le h1 with heq | hlt
  · exact heq
  · have := (lowerBound_spec arr v hle).2 (lowerBound arr v)
      (le_refl _) (by omega)
    have hmono := getD_strict_of_adj hadj hlt hk
    rw [hv] at hmono
    exact absurd (lt_of_le_of_lt this hmono) (lt_irrefl v)

/-! ### Characterization of the `dpchim` interior loop -/

theorem hAt_pos {x : List ℚ}
    (hadj : ∀ j < x.length - 1, x.getD j 0 < x.getD (j+1) 0)
    {j : Nat} (hj : j + 1 < x.length) : 0 < hAt x j := by
  unfold hAt
  have := hadj j (by omega)
  linarith

theorem list_range_one : List.range 1 = [0] := rfl

/-- One unfolding of the loop at an index `i > 1` (the shifting branch). -/
theorem dpchimLoop_succ_shift (x y : List ℚ) (i fuel : Nat)
    (h1 del1 h2 del2 hsum : ℚ) (hi : 1 < i) :
    dpchimLoop x y i (fuel+1) h1 del1 h2 del2 hsum
      = (brodlie h2 (x.getD (i+1) 0 - x.getD i 0)
            (h2 + (x.getD (i+1) 0 - x.getD i 0)) del2
            ((y.getD (i+1) 0 - y.getD i 0) / (x.getD (i+1) 0 - x.getD i 0)) ::
          (dpchimLoop x y (i+1) fuel h2 del2 (x.getD (i+1) 0 - x.getD i 0)
            ((y.getD (i+1) 0 - y.getD i 0) / (x.getD (i+1) 0 - x.getD i 0))
            (h2 + (x.getD (i+1) 0 - x.getD i 0))).1,
         (dpchimLoop x y (i+1) fuel h2 del2 (x.getD (i+1) 0 - x.getD i 0)
            ((y.getD (i+1) 0 - y.getD i 0) / (x.getD (i+1) 0 - x.getD i 0))
            (h2 + (x.getD (i+1) 0 - x.getD i 0))).2) := by
  simp only [dpchimLoop, if_pos hi]

/-- One unfolding of the loop at index `i ≤ 1` (the first iteration, which
uses the incoming state unshifted). -/
theorem dpchimLoop_succ_first (x y : List ℚ) (i fuel : Nat)
    (h1 del1 h2 del2 hsum : ℚ) (hi : ¬ 1 < i) :
    dpchimLoop x y i (fuel+1) h1 del1 h2 del2 hsum
      = (brodlie h1 h2 hsum del1 del2 ::
          (dpchimLoop x y (i+1) fuel h1 del1 h2 del2 hsum).1,
         (dpchimLoop x y (i+1) fuel h1 del1 h2 del2 hsum).2) := by
  simp only [dpchimLoop, if_neg hi]

/-- Running the loop from an index `i ≥ 2` with a state whose `(h2, del2)`
components hold interval `i-1`'s width and secant produces exactly the
per-index interior slopes, then the final state of the last two intervals. -/
theorem dpchimLoop_spec (x y : List ℚ) :
    ∀ f i, 2 ≤ i → ∀ h1 del1 h2 del2 hsum,
      h2 = hAt x (i-1) → del2 = delAt x y (i-1) →
      dpchimLoop x y i (f+1) h1 del1 h2 del2 hsum
        = ((List.range (f+1)).map (fun k => islope x y (i+k)),
           (hAt x (i+f), hAt x (i+f-1) + hAt x (i+f),
            delAt x y (i+f-1), delAt x y (i+f))) := by
  intro f
  induction f with
  | zero =>
    intro i hi h1 del1 h2 del2 hsum hh2 hdel2
    subst hh2
    subst hdel2
    have hi1 : 1 < i := by omega
    rw [dpchimLoop_succ_shift x y i 0 h1 del1 (hAt x (i-1)) (delAt x y (i-1))
      hsum hi1]
    simp only [dpchimLoop, list_range_one, List.map_cons, List.map_nil,
      Nat.add_zero]
    rfl
  | succ f ih =>
    intro i hi h1 del1 h2 del2 hsum hh2 hdel2
    subst hh2
    subst hdel2
    have hi1 : 1 < i := by omega
    rw [dpchimLoop_succ_shift x y i (f+1) h1 del1 (hAt x (i-1)) (delAt x y (i-1))
      hsum hi1]
    rw [ih (i+1) (by omega) (hAt x (i-1)) (delAt x y (i-1))
      (x.getD (i+1) 0 - x.getD i 0)
      ((y.getD (i+1) 0 - y.getD i 0) / (x.getD (i+1) 0 - x.getD i 0))
      (hAt x (i-1) + (x.getD (i+1) 0 - x.getD i 0)) rfl rfl]
    dsimp only
    rw [Prod.mk.injEq]
    refine ⟨?_, ?_⟩
    · show islope x y i :: _ = _
      conv_rhs => rw [List.range_succ_eq_map, List.map_cons, List.map_map]
      have hfun : ((fun k => islope x y (i + k)) ∘ Nat.succ)
          = (fun k => islope x y (i + 1 + k)) := by
        funext k
        show islope x y (i + (k + 1)) = islope x y (i + 1 + k)
        rw [show i + (k + 1) = i + 1 + k from by omega]
      rw [hfun]
      exact rfl
    · show (hAt x (i + 1 + f), hAt x (i + 1 + f - 1) + hAt x (i + 1 + f),
        delAt x y (i + 1 + f - 1), delAt x y (i + 1 + f)) = _
      rw [show i + 1 + f = i + (f + 1) from by omega]

/-- Running the loop as `dpchim` does, from `i = 1` with the first two
intervals' state. -/
theorem dpchimLoop_spec_one (x y : List ℚ) (f : Nat) :
    dpchimLoop x y 1 (f+1) (hAt x 0) (delAt x y 0) (hAt x 1) (delAt x y 1)
        (hAt x 0 + hAt x 1)
      = ((List.range (f+1)).map (fun k => islope x y (k+1)),
         (hAt x (f+1), hAt x f + hAt x (f+1), delAt x y f, delAt x y (f+1))) := by
  rw [dpchimLoop_succ_first x y 1 f (hAt x 0) (delAt x y 0) (hAt x 1)
    (delAt x y 1) (hAt x 0 + hAt x 1) (by omega)]
  match f with
  | 0 =>
    simp only [dpchimLoop, list_range_one, List.map_cons, List.map_nil]
    rfl
  | Nat.succ f =>
    rw [dpchimLoop_spec x y f (1+1) (by omega) (hAt x 0) (delAt x y 0)
      (hAt x 1) (delAt x y 1) (hAt x 0 + hAt x 1) rfl rfl]
    dsimp only
    rw [Prod.mk.injEq]
    refine ⟨?_, ?_⟩
    · show islope x y 1 :: _ = _
      conv_rhs => rw [List.range_succ_eq_map, List.map_cons, List.map_map]
      have hfun : ((fun k => islope x y (k + 1)) ∘ Nat.succ)
          = (fun k => islope x y (1 + 1 + k)) := by
        funext k
        show islope x y (k + 1 + 1) = islope x y (1 + 1 + k)
        rw [show k + 1 + 1 = 1 + 1 + k from by omega]
      rw [hfun]
    · show (hAt x (1 + 1 + f), hAt x (1 + 1 + f - 1) + hAt x (1 + 1 + f),
        delAt x y (1 + 1 + f - 1), delAt x y (1 + 1 + f)) = _
      rw [show 1 + 1 + f = f + 1 + 1 from by omega,
        show f + 1 + 1 - 1 = f + 1 from by omega]

/-- Closed form of the `n ≥ 3` branch of `dpchim`. -/
theorem dpchim3_eq (x y : List ℚ) (h3 : 3 ≤ x.length) :
    dpchim3 x y
      = endLeft (hAt x 0) (hAt x 1) (delAt x y 0) (delAt x y 1) ::
          ((List.range (x.length - 2)).map (fun k => islope x y (k+1)) ++
            [endRightSt (hAt x (x.length - 2),
              hAt x (x.length - 3) + hAt x (x.length - 2),
              delAt x y (x.length - 3), delAt x y (x.length - 2))]) := by
  unfold dpchim3
  rw [show x.length - 2 = (x.length - 3) + 1 from by omega, dpchimLoop_spec_one]

theorem dpchim3_length (x y : List ℚ) (h3 : 3 ≤ x.length) :
    (dpchim3 x y).length = x.length := by
  rw [dpchim3_eq x y h3]
  simp only [List.length_cons, List.length_append, List.length_map,
    List.length_range, List.length_nil]
  omega

theorem dpchim3_getD_zero (x y : List ℚ) (h3 : 3 ≤ x.length) :
    (dpchim3 x y).getD 0 0 = endLeft (hAt x 0) (hAt x 1) (delAt x y 0) (delAt x y 1) := by
  rw [dpchim3_eq x y h3]
  rfl

theorem dpchim3_getD_interior (x y : List ℚ) (h3 : 3 ≤ x.length) {i : Nat}
    (hi1 : 1 ≤ i) (hi2 : i ≤ x.length - 2) :
    (dpchim3 x y).getD i 0 = islope x y i := by
  rw [dpchim3_eq x y h3, show i = (i-1)+1 from by omega, List.getD_cons_succ,
    getD_append_left (by simp only [List.length_map, List.length_range]; omega),
    getD_map_range _ (by omega : i - 1 < x.length - 2),
    show i - 1 + 1 = i from by omega]

theorem dpchim3_getD_last (x y : List ℚ) (h3 : 3 ≤ x.length) :
    (dpchim3 x y).getD (x.length - 1) 0
      = endRightSt (hAt x (x.length - 2),
          hAt x (x.length - 3) + hAt x (x.length - 2),
          delAt x y (x.length - 3), delAt x y (x.length - 2)) := by
  rw [dpchim3_eq x y h3, show x.length - 1 = (x.length - 2) + 1 from by omega,
    List.getD_cons_succ, List.getD_eq_getElem?_getD, List.getElem?_append,
    if_neg (by simp only [List.length_map, List.length_range]; omega)]
  simp only [List.length_map, List.length_range, Nat.sub_self]
  rfl

/-! ### The `dpchim` entry point on valid and invalid inputs -/

theorem dpchim_eq_ok3 {x y : List ℚ} (hlen : x.length = y.length)
    (h3 : 3 ≤ x.length) (hinc : strictIncr x = true) :
    dpchim x y = Except.ok (dpchim3 x y) := by
  unfold dpchim
  rw [if_neg (fun h => h hlen), if_neg (by omega),
    if_neg (fun h => h (by simp [hinc])), if_neg (by omega)]

theorem dpchim_eq_ok2 {x y : List ℚ} (hlen : x.length = y.length)
    (h2 : x.length = 2) (hinc : strictIncr x = true) :
    dpchim x y = Except.ok [delAt x y 0, delAt x y 0] := by
  unfold dpchim
  rw [if_neg (fun h => h hlen), if_neg (by omega),
    if_neg (fun h => h (by simp [hinc])), if_pos h2]
  rfl

theorem dpchim_ok_iff (x y : List ℚ) :
    (∃ d, dpchim x y = Except.ok d) ↔
      (x.length = y.length ∧ 2 ≤ x.length ∧ strictIncr x = true) := by
  constructor
  · intro ⟨d, hd⟩
    unfold dpchim at hd
    split_ifs at hd with h1 h2 h3 h4
    · push_neg at h1
      exact ⟨h1, by omega, h3⟩
    · push_neg at h1
      exact ⟨h1, by omega, h3⟩
  · intro ⟨h1, h2, h3⟩
    by_cases hx2 : x.length = 2
    · exact ⟨_, dpchim_eq_ok2 h1 hx2 h3⟩
    · exact ⟨_, dpchim_eq_ok3 h1 (by omega) h3⟩

theorem dpchim_length {x y : List ℚ} {d : List ℚ} (hd : dpchim x y = Except.ok d) :
    d.length = x.length := by
  unfold dpchim at hd
  split_ifs at hd with h1 h2 h3 h4
  · simp only [Except.ok.injEq] at hd
    rw [← hd]
    simp [h4]
  · simp only [Except.ok.injEq] at hd
    push_neg at h1
    rw [← hd, dpchim3_length x y (by omega)]

/-! ### Bounds on the Brodlie-modified Butland interior slope -/

theorem brodlie_eq {h1 h2 hsum del1 del2 : ℚ} (h : 0 < dpchst del1 del2) :
    brodlie h1 h2 hsum del1 del2
      = min |del1| |del2| /
          ((hsum + h1) / (hsum * 3) * (del1 / max |del1| |del2|)
            + (hsum + h2) / (hsum * 3) * (del2 / max |del1| |del2|)) := by
  simp only [brodlie, if_pos h]

theorem brodlie_eq_zero {h1 h2 hsum del1 del2 : ℚ} (h : ¬ 0 < dpchst del1 del2) :
    brodlie h1 h2 hsum del1 del2 = 0 := by
  simp only [brodlie, if_neg h]

theorem dpchst_cases (a b : ℚ) :
    dpchst a b = 1 ∨ dpchst a b = 0 ∨ dpchst a b = -1 := by
  unfold dpchst
  split_ifs <;> simp

theorem dpchst_pos_iff (a b : ℚ) :
    0 < dpchst a b ↔ (0 < a ∧ 0 < b) ∨ (a < 0 ∧ b < 0) := by
  constructor
  · intro h
    rcases dpchst_cases a b with h1 | h1 | h1
    · exact dpchst_one_cases h1
    · rw [h1] at h
      exact absurd h (by decide)
    · rw [h1] at h
      exact absurd h (by decide)
  · rintro (⟨ha, hb⟩ | ⟨ha, hb⟩)
    · rw [dpchst_pos_pos ha hb]
      decide
    · rw [dpchst_neg_neg ha hb]
      decide

theorem dpchst_pos_neg_iff (a b : ℚ) :
    0 < dpchst (-a) (-b) ↔ 0 < dpchst a b := by
  rw [dpchst_pos_iff, dpchst_pos_iff]
  constructor
  · rintro (⟨ha, hb⟩ | ⟨ha, hb⟩)
    · exact Or.inr ⟨by linarith, by linarith⟩
    · exact Or.inl ⟨by linarith, by linarith⟩
  · rintro (⟨ha, hb⟩ | ⟨ha, hb⟩)
    · exact Or.inr ⟨by linarith, by linarith⟩
    · exact Or.inl ⟨by linarith, by linarith⟩

theorem brodlie_neg_symm (h1 h2 hsum del1 del2 : ℚ) :
    brodlie h1 h2 hsum (-del1) (-del2) = - brodlie h1 h2 hsum del1 del2 := by
  by_cases h : 0 < dpchst del1 del2
  · rw [brodlie_eq ((dpchst_pos_neg_iff del1 del2).mpr h), brodlie_eq h,
      abs_neg, abs_neg, neg_div, mul_neg, neg_div, mul_neg, ← neg_add, div_neg]
  · rw [brodlie_eq_zero (fun hx => h ((dpchst_pos_neg_iff del1 del2).mp hx)),
      brodlie_eq_zero h, neg_zero]

/-- Positive same-sign secants: the interior slope is strictly between `0`
and `3 · min del1 del2`. -/
theorem brodlie_pos {h1 h2 del1 del2 : ℚ} (hh1 : 0 < h1) (hh2 : 0 < h2)
    (hd1 : 0 < del1) (hd2 : 0 < del2) :
    0 < brodlie h1 h2 (h1 + h2) del1 del2 ∧
      brodlie h1 h2 (h1 + h2) del1 del2 < 3 * min del1 del2 := by
  have hsum : 0 < h1 + h2 := by linarith
  have hq3 : (0:ℚ) < (h1 + h2) * 3 := by linarith
  rw [brodlie_eq (by rw [dpchst_pos_pos hd1 hd2]; decide),
    abs_of_pos hd1, abs_of_pos hd2]
  have hdmax : 0 < max del1 del2 := lt_max_iff.mpr (Or.inl hd1)
  have hdmin : 0 < min del1 del2 := lt_min hd1 hd2
  have hw1 : (1:ℚ)/3 < (h1 + h2 + h1) / ((h1 + h2) * 3) := by
    rw [div_lt_div_iff₀ (by norm_num) hq3]
    linarith
  have hw2 : (1:ℚ)/3 < (h1 + h2 + h2) / ((h1 + h2) * 3) := by
    rw [div_lt_div_iff₀ (by norm_num) hq3]
    linarith
  have hr1 : 0 < del1 / max del1 del2 := div_pos hd1 hdmax
  have hr2 : 0 < del2 / max del1 del2 := div_pos hd2 hdmax
  have hden : (1:ℚ)/3
      < (h1 + h2 + h1) / ((h1 + h2) * 3) * (del1 / max del1 del2)
        + (h1 + h2 + h2) / ((h1 + h2) * 3) * (del2 / max del1 del2) := by
    rcases le_total del1 del2 with hc | hc
    · rw [max_eq_right hc, div_self (ne_of_gt hd2), mul_one]
      have : 0 < (h1 + h2 + h1) / ((h1 + h2) * 3) * (del1 / max del1 del2) :=
        mul_pos (by linarith) hr1
      rw [max_eq_right hc] at this
      linarith
    · rw [max_eq_left hc, div_self (ne_of_gt hd1), mul_one]
      have : 0 < (h1 + h2 + h2) / ((h1 + h2) * 3) * (del2 / max del1 del2) :=
        mul_pos (by linarith) hr2
      rw [max_eq_left hc] at this
      linarith
  have hdenpos : (0:ℚ)
      < (h1 + h2 + h1) / ((h1 + h2) * 3) * (del1 / max del1 del2)
        + (h1 + h2 + h2) / ((h1 + h2) * 3) * (del2 / max del1 del2) := by
    linarith
  refine ⟨div_pos hdmin hdenpos, ?_⟩
  rw [div_lt_iff₀ hdenpos]
  nlinarith [mul_pos (by linarith : (0:ℚ) < 3 * min del1 del2)
    (by linarith :
      (0:ℚ) < (h1 + h2 + h1) / ((h1 + h2) * 3) * (del1 / max del1 del2)
        + (h1 + h2 + h2) / ((h1 + h2) * 3) * (del2 / max del1 del2) - 1/3)]

/-- Negative same-sign secants: the interior slope is strictly between
`-3 · min |del1| |del2|` and `0`. -/
theorem brodlie_neg {h1 h2 del1 del2 : ℚ} (hh1 : 0 < h1) (hh2 : 0 < h2)
    (hd1 : del1 < 0) (hd2 : del2 < 0) :
    brodlie h1 h2 (h1 + h2) del1 del2 < 0 ∧
      -(3 * min (-del1) (-del2)) < brodlie h1 h2 (h1 + h2) del1 del2 := by
  have hB := brodlie_pos hh1 hh2 (by linarith : 0 < -del1) (by linarith : 0 < -del2)
  have hsymm := brodlie_neg_symm h1 h2 (h1 + h2) (-del1) (-del2)
  rw [neg_neg, neg_neg] at hsymm
  rw [hsymm]
  exact ⟨by linarith [hB.1], by linarith [hB.2]⟩

/-- Same-sign secants: the interior slope has their sign and magnitude
strictly between `0` and three times the smaller secant magnitude. -/
theorem brodlie_bounds {h1 h2 del1 del2 : ℚ} (hh1 : 0 < h1) (hh2 : 0 < h2)
    (hs : dpchst del1 del2 = 1) :
    0 < |brodlie h1 h2 (h1 + h2) del1 del2| ∧
      |brodlie h1 h2 (h1 + h2) del1 del2| < 3 * min |del1| |del2| ∧
      dpchst (brodlie h1 h2 (h1 + h2) del1 del2) del1 = 1 := by
  rcases dpchst_one_cases hs with ⟨hd1, hd2⟩ | ⟨hd1, hd2⟩
  · have hB := brodlie_pos hh1 hh2 hd1 hd2
    rw [abs_of_pos hB.1, abs_of_pos hd1, abs_of_pos hd2]
    exact ⟨hB.1, hB.2, dpchst_pos_pos hB.1 hd1⟩
  · have hB := brodlie_neg hh1 hh2 hd1 hd2
    rw [abs_of_neg hB.1, abs_of_neg hd1, abs_of_neg hd2]
    exact ⟨by linarith [hB.1], by linarith [hB.2], dpchst_neg_neg hB.1 hd1⟩

/-! ### Sign preservation of the endpoint formulas -/

theorem endLeft_nonneg {h1 h2 del1 del2 : ℚ} (hd1 : 0 < del1) (hd2 : 0 < del2) :
    0 ≤ endLeft h1 h2 del1 del2 := by
  simp only [endLeft]
  split_ifs with hc1 hc2 hc3
  · exact le_refl 0
  · exact absurd hc2 (by rw [dpchst_pos_pos hd1 hd2]; decide)
  · exact absurd hc2 (by rw [dpchst_pos_pos hd1 hd2]; decide)
  · exact nonneg_of_dpchst hc1 hd1

theorem endLeft_nonpos {h1 h2 del1 del2 : ℚ} (hd1 : del1 < 0) (hd2 : del2 < 0) :
    endLeft h1 h2 del1 del2 ≤ 0 := by
  simp only [endLeft]
  split_ifs with hc1 hc2 hc3
  · exact le_refl 0
  · exact absurd hc2 (by rw [dpchst_neg_neg hd1 hd2]; decide)
  · exact absurd hc2 (by rw [dpchst_neg_neg hd1 hd2]; decide)
  · exact nonpos_of_dpchst hc1 hd1

theorem endRightSt_nonneg {h2 hsum del1 del2 : ℚ} (hd1 : 0 < del1)
    (hd2 : 0 < del2) : 0 ≤ endRightSt (h2, hsum, del1, del2) := by
  simp only [endRightSt]
  split_ifs with hc1 hc2 hc3
  · exact le_refl 0
  · exact absurd hc2 (by rw [dpchst_pos_pos hd1 hd2]; decide)
  · exact absurd hc2 (by rw [dpchst_pos_pos hd1 hd2]; decide)
  · exact nonneg_of_dpchst hc1 hd2

theorem endRightSt_nonpos {h2 hsum del1 del2 : ℚ} (hd1 : del1 < 0)
    (hd2 : del2 < 0) : endRightSt (h2, hsum, del1, del2) ≤ 0 := by
  simp only [endRightSt]
  split_ifs with hc1 hc2 hc3
  · exact le_refl 0
  · exact absurd hc2 (by rw [dpchst_neg_neg hd1 hd2]; decide)
  · exact absurd hc2 (by rw [dpchst_neg_neg hd1 hd2]; decide)
  · exact nonpos_of_dpchst hc1 hd2

/-! ### The output-array writes of `piecewiseCubic` -/

theorem writeAt_length (yI : List (Option ℚ)) :
    ∀ (s : Nat) (vals : List ℚ), (writeAt yI s vals).length = yI.length := by
  induction yI with
  | nil =>
    intro s vals
    rfl
  | cons o rest ih =>
    intro s vals
    match s, vals with
    | Nat.succ s, vals =>
      show (o :: writeAt rest s vals).length = _
      rw [List.length_cons, List.length_cons, ih s vals]
    | 0, v :: vs =>
      show (some v :: writeAt rest 0 vs).length = _
      rw [List.length_cons, List.length_cons, ih 0 vs]
    | 0, [] => rfl

theorem writeAt_getD (yI : List (Option ℚ)) :
    ∀ (s : Nat) (vals : List ℚ) (k : Nat),
      (writeAt yI s vals).getD k none
        = if s ≤ k ∧ k < s + vals.length ∧ k < yI.length
          then some (vals.getD (k - s) 0) else yI.getD k none := by
  induction yI with
  | nil =>
    intro s vals k
    rw [if_neg (by simp only [List.length_nil]; omega)]
    rfl
  | cons o rest ih =>
    intro s vals k
    match s, vals with
    | Nat.succ s, vals =>
      show (o :: writeAt rest s vals).getD k none = _
      match k with
      | 0 =>
        rw [List.getD_cons_zero, List.getD_cons_zero, if_neg (by omega)]
      | Nat.succ k =>
        rw [List.getD_cons_succ, List.getD_cons_succ, ih s vals k]
        by_cases hc : s ≤ k ∧ k < s + vals.length ∧ k < rest.length
        · rw [if_pos hc, if_pos (by simp only [List.length_cons]; omega),
            show k + 1 - (s + 1) = k - s from by omega]
        · rw [if_neg hc, if_neg (by simp only [List.length_cons]; omega)]
    | 0, v :: vs =>
      show (some v :: writeAt rest 0 vs).getD k none = _
      match k with
      | 0 =>
        rw [List.getD_cons_zero,
          if_pos (by simp only [List.length_cons]; omega)]
        rfl
      | Nat.succ k =>
        rw [List.getD_cons_succ, List.getD_cons_succ, ih 0 vs k]
        by_cases hc : 0 ≤ k ∧ k < 0 + vs.length ∧ k < rest.length
        · rw [if_pos hc, if_pos (by simp only [List.length_cons]; omega),
            Nat.sub_zero, Nat.sub_zero, List.getD_cons_succ]
        · rw [if_neg hc, if_neg (by simp only [List.length_cons]; omega)]
    | 0, [] =>
      show (o :: rest).getD k none = _
      rw [if_neg (by simp only [List.length_nil]; omega)]

theorem getD_take_drop (xI : List ℚ) (l n j : Nat) (hj : j < n) :
    ((xI.drop l).take n).getD j 0 = xI.getD (l + j) 0 := by
  rw [List.getD_eq_getElem?_getD, List.getElem?_take, if_pos hj,
    List.getElem?_drop, List.getD_eq_getElem?_getD]

theorem getD_map_q (f : ℚ → ℚ) (l : List ℚ) (j : Nat) (hj : j < l.length) :
    (l.map f).getD j 0 = f (l.getD j 0) := by
  rw [List.getD_eq_getElem?_getD, List.getElem?_map,
    List.getElem?_eq_getElem hj, List.getD_eq_getElem?_getD,
    List.getElem?_eq_getElem hj]
  rfl

theorem adjRight_le_length (x xI : List ℚ) (i : Nat) :
    adjRight x xI i ≤ xI.length := by
  have h := lowerBound_le_length xI (x.getD (i+1) 0)
  simp only [adjRight]
  split_ifs with hc
  · omega
  · exact h

/-- Effect of one interval pass on one output slot: queries in positions
`[leftIndex, rightIndex)` get the interval's Hermite value, all other slots
are untouched. -/
theorem fillInterval_getD (x y m xI : List ℚ) (i : Nat) (yI : List (Option ℚ))
    (hlen : yI.length = xI.length) (k : Nat) :
    (fillInterval x y m xI i yI).getD k none
      = if leftIdx x xI i ≤ k ∧ k < adjRight x xI i
        then some (hermiteVal x y m i (xI.getD k 0)) else yI.getD k none := by
  have hr : adjRight x xI i ≤ xI.length := adjRight_le_length x xI i
  unfold fillInterval
  rw [writeAt_getD]
  rw [List.length_map, List.length_take, List.length_drop]
  by_cases hc : leftIdx x xI i ≤ k ∧ k < adjRight x xI i
  · rw [if_pos (by constructor; exact hc.1; constructor; omega; omega),
      if_pos hc]
    rw [getD_map_q _ _ _ (by rw [List.length_take, List.length_drop]; omega),
      getD_take_drop _ _ _ _ (by omega),
      show leftIdx x xI i + (k - leftIdx x xI i) = k from by omega]
  · rw [if_neg (by omega), if_neg hc]

/-- The fold of `piecewiseCubic` restricted to the first `N` intervals. -/
def pcFold (x y m xI : List ℚ) (N : Nat) : List (Option ℚ) :=
  (List.range N).foldl (fun yI i => fillInterval x y m xI i yI)
    (List.replicate xI.length none)

theorem piecewiseCubic_eq_pcFold (x y m xI : List ℚ) :
    piecewiseCubic x y m xI = pcFold x y m xI (x.length - 1) := rfl

theorem pcFold_succ (x y m xI : List ℚ) (N : Nat) :
    pcFold x y m xI (N+1) = fillInterval x y m xI N (pcFold x y m xI N) := by
  unfold pcFold
  rw [List.range_succ, List.foldl_append]
  rfl

theorem pcFold_length (x y m xI : List ℚ) :
    ∀ N, (pcFold x y m xI N).length = xI.length := by
  intro N
  induction N with
  | zero => exact List.length_replicate _ _
  | succ N ih =>
    rw [pcFold_succ]
    simp only [fillInterval]
    rw [writeAt_length, ih]

theorem getD_replicate_none (n k : Nat) :
    (List.replicate n (none : Option ℚ)).getD k none = none := by
  rw [List.getD_eq_getElem?_getD, List.getElem?_replicate]
  split_ifs <;> rfl

theorem pcFold_getD_not_written (x y m xI : List ℚ) (k : Nat) :
    ∀ N, (∀ i < N, ¬(leftIdx x xI i ≤ k ∧ k < adjRight x xI i)) →
      (pcFold x y m xI N).getD k none = none := by
  intro N
  induction N with
  | zero =>
    intro _
    exact getD_replicate_none _ _
  | succ N ih =>
    intro h
    rw [pcFold_succ, fillInterval_getD x y m xI N _ (pcFold_length x y m xI N) k,
      if_neg (h N (by omega))]
    exact ih (fun i hi => h i (by omega))

theorem pcFold_getD_written (x y m xI : List ℚ) (k i0 : Nat)
    (hw : leftIdx x xI i0 ≤ k ∧ k < adjRight x xI i0) :
    ∀ N, i0 < N → (∀ i < N, i ≠ i0 → ¬(leftIdx x xI i ≤ k ∧ k < adjRight x xI i)) →
      (pcFold x y m xI N).getD k none
        = some (hermiteVal x y m i0 (xI.getD k 0)) := by
  intro N
  induction N with
  | zero =>
    intro h0
    exact absurd h0 (by omega)
  | succ N ih =>
    intro h0 huniq
    rw [pcFold_succ, fillInterval_getD x y m xI N _ (pcFold_length x y m xI N) k]
    by_cases hN : i0 = N
    · subst hN
      rw [if_pos hw]
    · rw [if_neg (huniq N (by omega) (fun he => hN he.symm))]
      exact ih (by omega) (fun i hi hne => huniq i (by omega) hne)

/-! ### Which interval writes which query slot -/

/-- For strictly increasing queries, interval `i` writes slot `k` exactly when
the `k`-th query lies in `[x i, x (i+1))`, or (last interval only) equals the
final knot. -/
theorem writes_iff {x xI : List ℚ}
    (hx : ∀ j < x.length - 1, x.getD j 0 < x.getD (j+1) 0)
    (hq : ∀ j < xI.length - 1, xI.getD j 0 < xI.getD (j+1) 0)
    {k : Nat} (hk : k < xI.length) {i : Nat} (hi : i < x.length - 1) :
    (leftIdx x xI i ≤ k ∧ k < adjRight x xI i)
      ↔ ((x.getD i 0 ≤ xI.getD k 0 ∧ xI.getD k 0 < x.getD (i+1) 0)
          ∨ (i = x.length - 2 ∧ xI.getD k 0 = x.getD (x.length - 1) 0)) := by
  have hqle := adj_le_of_adj_lt hq
  have hleft : leftIdx x xI i ≤ k ↔ x.getD i 0 ≤ xI.getD k 0 :=
    lowerBound_le_iff hqle hk
  have hright : k < lowerBound xI (x.getD (i+1) 0) ↔ xI.getD k 0 < x.getD (i+1) 0 :=
    lt_lowerBound_iff hqle hk
  simp only [adjRight]
  split_ifs with hc
  · obtain ⟨hi2, hrlen, hrval⟩ := hc
    constructor
    · rintro ⟨h1, h2⟩
      rcases Nat.lt_or_ge k (lowerBound xI (x.getD (i+1) 0)) with hlt | hge
      · exact Or.inl ⟨hleft.mp h1, hright.mp hlt⟩
      · have hk_eq : k = lowerBound xI (x.getD (i+1) 0) := by omega
        refine Or.inr ⟨hi2, ?_⟩
        rw [hk_eq, hrval, show i + 1 = x.length - 1 from by omega]
    · rintro (⟨h1, h2⟩ | ⟨hi2x, hveq⟩)
      · have := hright.mpr h2
        exact ⟨hleft.mpr h1, by omega⟩
      · have hvi : xI.getD k 0 = x.getD (i+1) 0 := by
          rw [hveq, show x.length - 1 = i + 1 from by omega]
        have hge : lowerBound xI (x.getD (i+1) 0) ≤ k :=
          (lowerBound_le_iff hqle hk).mpr (le_of_eq hvi.symm)
        have hle : k ≤ lowerBound xI (x.getD (i+1) 0) := by
          by_contra hgt
          push_neg at hgt
          have hstep := getD_strict_of_adj hq hgt hk
          rw [hrval, hvi] at hstep
          exact absurd hstep (lt_irrefl _)
        refine ⟨hleft.mpr ?_, by omega⟩
        rw [hvi]
        exact (hx i hi).le
  · push_neg at hc
    constructor
    · rintro ⟨h1, h2⟩
      exact Or.inl ⟨hleft.mp h1, hright.mp h2⟩
    · rintro (⟨h1, h2⟩ | ⟨hi2x, hveq⟩)
      · exact ⟨hleft.mpr h1, hright.mpr h2⟩
      · have hvi : xI.getD k 0 = x.getD (i+1) 0 := by
          rw [hveq, show x.length - 1 = i + 1 from by omega]
        have hge : lowerBound xI (x.getD (i+1) 0) ≤ k :=
          (lowerBound_le_iff hqle hk).mpr (le_of_eq hvi.symm)
        have hrlen : lowerBound xI (x.getD (i+1) 0) < xI.length := by omega
        have hub : x.getD (i+1) 0 ≤ xI.getD (lowerBound xI (x.getD (i+1) 0)) 0 :=
          (lowerBound_spec xI _ hqle).2 _ (le_refl _) hrlen
        have hmono : xI.getD (lowerBound xI (x.getD (i+1) 0)) 0 ≤ xI.getD k 0 :=
          getD_mono_of_adj hqle hge hk
        have : xI.getD (lowerBound xI (x.getD (i+1) 0)) 0 = x.getD (i+1) 0 :=
          le_antisymm (le_trans hmono (le_of_eq hvi)) hub
        exact absurd this (hc hi2x hrlen)

/-- The spec's containing interval is well-defined for in-range queries:
it is a valid interval index and the query lies in it. -/
theorem containingInterval_spec {x : List ℚ}
    (hx : ∀ j < x.length - 1, x.getD j 0 < x.getD (j+1) 0)
    (hn : 2 ≤ x.length) {v : ℚ}
    (hlo : x.getD 0 0 ≤ v) (hhi : v ≤ x.getD (x.length - 1) 0) :
    containingInterval x v < x.length - 1 ∧
      ((x.getD (containingInterval x v) 0 ≤ v
          ∧ v < x.getD (containingInterval x v + 1) 0)
        ∨ (containingInterval x v = x.length - 2
            ∧ v = x.getD (x.length - 1) 0)) := by
  have hxle := adj_le_of_adj_lt hx
  have hspec := lowerBound_spec x v hxle
  have hlb_len : lowerBound x v ≤ x.length := lowerBound_le_length x v
  simp only [containingInterval]
  by_cases hcase : lowerBound x v < x.length ∧ x.getD (lowerBound x v) 0 = v
  · rw [if_pos hcase]
    by_cases hj : lowerBound x v ≤ x.length - 2
    · rw [min_eq_left hj]
      refine ⟨by omega, Or.inl ⟨le_of_eq hcase.2, ?_⟩⟩
      calc v = x.getD (lowerBound x v) 0 := hcase.2.symm
        _ < x.getD (lowerBound x v + 1) 0 := hx _ (by omega)
    · have hj2 : lowerBound x v = x.length - 1 := by omega
      rw [min_eq_right (by omega)]
      refine ⟨by omega, Or.inr ⟨rfl, ?_⟩⟩
      rw [← hcase.2, hj2]
  · rw [if_neg hcase]
    have hj1 : 1 ≤ lowerBound x v := by
      by_contra h0
      push_neg at h0
      have hj0 : lowerBound x v = 0 := by omega
      have hle0 : v ≤ x.getD 0 0 := hspec.2 0 (by omega) (by omega)
      exact hcase ⟨by omega, by rw [hj0]; exact le_antisymm hlo hle0⟩
    have hjn : lowerBound x v ≤ x.length - 1 := by
      by_contra hbig
      push_neg at hbig
      have : x.getD (x.length - 1) 0 < v := hspec.1 _ (by omega)
      linarith
    rw [min_eq_left (by omega)]
    refine ⟨by omega, Or.inl ⟨(hspec.1 _ (by omega)).le, ?_⟩⟩
    have hle : v ≤ x.getD (lowerBound x v - 1 + 1) 0 := by
      rw [show lowerBound x v - 1 + 1 = lowerBound x v from by omega]
      exact hspec.2 _ (le_refl _) (by omega)
    rcases lt_or_eq_of_le hle with hlt | heq
    · exact hlt
    · refine absurd ⟨by omega, ?_⟩ hcase
      rw [show lowerBound x v - 1 + 1 = lowerBound x v from by omega] at heq
      exact heq.symm

/-- At most one interval contains a given query. -/
theorem interval_unique {x : List ℚ}
    (hx : ∀ j < x.length - 1, x.getD j 0 < x.getD (j+1) 0) {v : ℚ} {i i' : Nat}
    (hi : i < x.length - 1) (hi' : i' < x.length - 1)
    (h : (x.getD i 0 ≤ v ∧ v < x.getD (i+1) 0)
          ∨ (i = x.length - 2 ∧ v = x.getD (x.length - 1) 0))
    (h' : (x.getD i' 0 ≤ v ∧ v < x.getD (i'+1) 0)
          ∨ (i' = x.length - 2 ∧ v = x.getD (x.length - 1) 0)) :
    i = i' := by
  have hxle := adj_le_of_adj_lt hx
  rcases h with ⟨ha1, ha2⟩ | ⟨ha1, ha2⟩ <;> rcases h' with ⟨hb1, hb2⟩ | ⟨hb1, hb2⟩
  · by_contra hne
    rcases Nat.lt_or_ge i i' with hlt | hge
    · have : x.getD (i+1) 0 ≤ x.getD i' 0 :=
        getD_mono_of_adj hxle (by omega) (by omega)
      linarith
    · have hlt' : i' < i := by omega
      have : x.getD (i'+1) 0 ≤ x.getD i 0 :=
        getD_mono_of_adj hxle (by omega) (by omega)
      linarith
  · exfalso
    have : x.getD (i+1) 0 ≤ x.getD (x.length - 1) 0 :=
      getD_mono_of_adj hxle (by omega) (by omega)
    rw [← hb2] at this
    linarith
  · exfalso
    have : x.getD (i'+1) 0 ≤ x.getD (x.length - 1) 0 :=
      getD_mono_of_adj hxle (by omega) (by omega)
    rw [← ha2] at this
    linarith
  · omega

/-! ### Master evaluation theorems for `piecewiseCubic` -/

theorem piecewiseCubic_length (x y m xI : List ℚ) :
    (piecewiseCubic x y m xI).length = xI.length := by
  rw [piecewiseCubic_eq_pcFold]
  exact pcFold_length x y m xI _

/-- Sorted strictly increasing in-range queries: slot `k` holds exactly the
value of the Hermite cubic of the interval containing query `k`. -/
theorem piecewiseCubic_getD_inrange {x xI : List ℚ} (y m : List ℚ)
    (hx : ∀ j < x.length - 1, x.getD j 0 < x.getD (j+1) 0) (hn : 2 ≤ x.length)
    (hq : ∀ j < xI.length - 1, xI.getD j 0 < xI.getD (j+1) 0)
    {k : Nat} (hk : k < xI.length)
    (hlo : x.getD 0 0 ≤ xI.getD k 0)
    (hhi : xI.getD k 0 ≤ x.getD (x.length - 1) 0) :
    (piecewiseCubic x y m xI).getD k none
      = some (pchipValueAt x y m (xI.getD k 0)) := by
  obtain ⟨hint, hdisj⟩ := containingInterval_spec hx hn hlo hhi
  rw [piecewiseCubic_eq_pcFold]
  refine pcFold_getD_written x y m xI k (containingInterval x (xI.getD k 0))
    ((writes_iff hx hq hk hint).mpr hdisj) (x.length - 1) (by omega) ?_
  intro i hi hne hcontra
  have hdisj' := (writes_iff hx hq hk (by omega)).mp hcontra
  exact hne (interval_unique hx (by omega) hint hdisj' hdisj)

/-- Sorted queries out of range: the slot is never assigned. -/
theorem piecewiseCubic_getD_outrange {x xI : List ℚ} (y m : List ℚ)
    (hx : ∀ j < x.length - 1, x.getD j 0 < x.getD (j+1) 0)
    (hqle : ∀ j < xI.length - 1, xI.getD j 0 ≤ xI.getD (j+1) 0)
    {k : Nat} (hk : k < xI.length)
    (hout : xI.getD k 0 < x.getD 0 0 ∨ x.getD (x.length - 1) 0 < xI.getD k 0) :
    (piecewiseCubic x y m xI).getD k none = none := by
  have hxle := adj_le_of_adj_lt hx
  rw [piecewiseCubic_eq_pcFold]
  refine pcFold_getD_not_written x y m xI k (x.length - 1) ?_
  intro i hi hcontra
  obtain ⟨h1, h2⟩ := hcontra
  rcases hout with hlow | hhigh
  · have hxi : x.getD i 0 ≤ xI.getD k 0 := (lowerBound_le_iff hqle hk).mp h1
    have : x.getD 0 0 ≤ x.getD i 0 := getD_mono_of_adj hxle (by omega) (by omega)
    linarith
  · have hxi1 : x.getD (i+1) 0 ≤ x.getD (x.length - 1) 0 :=
      getD_mono_of_adj hxle (by omega) (by omega)
    have hvk : x.getD (i+1) 0 ≤ xI.getD k 0 := by linarith
    have hrk : lowerBound xI (x.getD (i+1) 0) ≤ k := (lowerBound_le_iff hqle hk).mpr hvk
    revert h2
    simp only [adjRight]
    split_ifs with hc
    · obtain ⟨hc1, hc2, hc3⟩ := hc
      intro h2
      have hkr : k = lowerBound xI (x.getD (i+1) 0) := by omega
      rw [← hkr] at hc3
      linarith
    · intro h2
      omega

/-! ### Exact interpolation at the knots -/

theorem hermiteVal_left (x y m : List ℚ) (i : Nat) :
    hermiteVal x y m i (x.getD i 0) = y.getD i 0 := by
  simp only [hermiteVal]
  ring

theorem hermite_right_algebra (a b ya yb ma mb : ℚ) (hne : b - a ≠ 0) :
    ya + (b - a) * (ma + (b - a) * (((yb - ya) / (b - a) - ma) / (b - a)
      + (ma + mb - 2 * (yb - ya) / (b - a)) / ((b - a) * (b - a)) * (b - b)))
      = yb := by
  rw [sub_self b, mul_zero, add_zero]
  field_simp
  ring

theorem hermiteVal_right (x y m : List ℚ) (i : Nat)
    (hne : x.getD (i+1) 0 - x.getD i 0 ≠ 0) :
    hermiteVal x y m i (x.getD (i+1) 0) = y.getD (i+1) 0 := by
  simp only [hermiteVal]
  exact hermite_right_algebra (x.getD i 0) (x.getD (i+1) 0) (y.getD i 0)
    (y.getD (i+1) 0) (m.getD i 0) (m.getD (i+1) 0) hne

/-- The spec value at a knot's own abscissa is exactly the knot's ordinate. -/
theorem pchipValueAt_knot {x : List ℚ} (y m : List ℚ)
    (hx : ∀ j < x.length - 1, x.getD j 0 < x.getD (j+1) 0) (hn : 2 ≤ x.length)
    {k : Nat} (hk : k < x.length) :
    pchipValueAt x y m (x.getD k 0) = y.getD k 0 := by
  have hlb : lowerBound x (x.getD k 0) = k := lowerBound_eq_of_mem hx hk rfl
  have hcond : lowerBound x (x.getD k 0) < x.length
      ∧ x.getD (lowerBound x (x.getD k 0)) 0 = x.getD k 0 := by
    rw [hlb]
    exact ⟨hk, rfl⟩
  simp only [pchipValueAt, containingInterval]
  rw [if_pos hcond, hlb]
  by_cases hcase : k ≤ x.length - 2
  · rw [min_eq_left hcase]
    exact hermiteVal_left x y m k
  · have hk1 : k = x.length - 1 := by omega
    rw [hk1, min_eq_right (by omega),
      show x.length - 1 = x.length - 2 + 1 from by omega]
    refine hermiteVal_right x y m (x.length - 2) ?_
    have := hx (x.length - 2) (by omega)
    exact sub_ne_zero_of_ne (ne_of_gt this)

theorem eq_single_of_length_one {l : List (Option ℚ)} {a : Option ℚ}
    (hlen : l.length = 1) (h0 : l.getD 0 none = a) : l = [a] := by
  match l with
  | [] => exact absurd hlen (by simp)
  | o :: rest =>
    have hr : rest = [] := by
      rw [List.length_cons] at hlen
      exact List.length_eq_zero.mp (by omega)
    subst hr
    rw [List.getD_cons_zero] at h0
    rw [h0]

/-! ### The claims -/

/-- C1: For every valid knot sequence (n ≥ 3, x strictly increasing) and every
interior index i (1 ≤ i ≤ n-2), if the sign comparator reports a sign change
between the two flanking secant slopes, or either flanking secant slope is
exactly zero, then the slope computed by the derivative estimator at knot i
is exactly zero. -/
theorem claim_c1 (x y : List ℚ) (i : Nat)
    (hlen : x.length = y.length) (hn : 3 ≤ x.length)
    (hinc : ∀ j < x.length - 1, x.getD j 0 < x.getD (j+1) 0)
    (hi1 : 1 ≤ i) (hi2 : i ≤ x.length - 2)
    (hsign : dpchst (delAt x y (i-1)) (delAt x y i) = -1
      ∨ delAt x y (i-1) = 0 ∨ delAt x y i = 0) :
    ∃ d, dpchim x y = Except.ok d ∧ d.getD i 0 = 0 := by
  have hstrict := (strictIncr_iff x).mpr hinc
  refine ⟨dpchim3 x y, dpchim_eq_ok3 hlen hn hstrict, ?_⟩
  rw [dpchim3_getD_interior x y hn hi1 hi2]
  unfold islope
  exact brodlie_eq_zero (dpchst_not_pos hsign)

/-- Witness for C1: x = [0,1,2], y = [0,1,0], i = 1 (a local maximum, the
flanking secants are 1 and -1). -/
theorem claim_c1_witness :
    ∃ d, dpchim [0, 1, 2] [0, 1, 0] = Except.ok d ∧ d.getD 1 0 = 0 :=
  claim_c1 [0, 1, 2] [0, 1, 0] 1 (by decide) (by decide) (by decide)
    (by decide) (by decide) (Or.inl (by norm_num [dpchst, delAt, hAt]))

/-- C2: For every valid knot sequence and every interior knot i whose two
flanking secant slopes are both nonzero and of the same sign, the slope
computed via the Brodlie-modified Butland formula lies strictly between 0 and
3·min(|del1|,|del2|): it has the same sign as the secants, positive magnitude,
and magnitude strictly below three times the smaller secant magnitude. -/
theorem claim_c2 (x y : List ℚ) (i : Nat)
    (hlen : x.length = y.length) (hn : 3 ≤ x.length)
    (hinc : ∀ j < x.length - 1, x.getD j 0 < x.getD (j+1) 0)
    (hi1 : 1 ≤ i) (hi2 : i ≤ x.length - 2)
    (hd1 : delAt x y (i-1) ≠ 0) (hd2 : delAt x y i ≠ 0)
    (hsame : dpchst (delAt x y (i-1)) (delAt x y i) = 1) :
    ∃ d, dpchim x y = Except.ok d ∧
      0 < |d.getD i 0| ∧
      |d.getD i 0| < 3 * min |delAt x y (i-1)| |delAt x y i| ∧
      dpchst (d.getD i 0) (delAt x y (i-1)) = 1 := by
  have hstrict := (strictIncr_iff x).mpr hinc
  refine ⟨dpchim3 x y, dpchim_eq_ok3 hlen hn hstrict, ?_⟩
  rw [dpchim3_getD_interior x y hn hi1 hi2]
  unfold islope
  exact brodlie_bounds (hAt_pos hinc (by omega)) (hAt_pos hinc (by omega)) hsame

/-- Witness for C2: x = [0,1,2], y = [0,1,2] (both secants equal 1), i = 1. -/
theorem claim_c2_witness :
    ∃ d, dpchim [0, 1, 2] [0, 1, 2] = Except.ok d ∧
      0 < |d.getD 1 0| ∧
      |d.getD 1 0| < 3 * min |delAt [0, 1, 2] [0, 1, 2] 0| |delAt [0, 1, 2] [0, 1, 2] 1| ∧
      dpchst (d.getD 1 0) (delAt [0, 1, 2] [0, 1, 2] 0) = 1 :=
  claim_c2 [0, 1, 2] [0, 1, 2] 1 (by decide) (by decide) (by decide)
    (by decide) (by decide) (by norm_num [delAt, hAt])
    (by norm_num [delAt, hAt]) (by norm_num [dpchst, delAt, hAt])

/-- C3: For every knot sequence of length n ≥ 3 with strictly increasing x and
strictly monotonic y, every slope returned by the derivative estimator is
non-negative when y is increasing and non-positive when y is decreasing: no
computed slope has the opposite sign to the data trend. -/
theorem claim_c3 (x y : List ℚ)
    (hlen : x.length = y.length) (hn : 3 ≤ x.length)
    (hinc : ∀ j < x.length - 1, x.getD j 0 < x.getD (j+1) 0) :
    ∃ d, dpchim x y = Except.ok d ∧
      ((∀ j < y.length - 1, y.getD j 0 < y.getD (j+1) 0) →
        ∀ j < d.length, 0 ≤ d.getD j 0) ∧
      ((∀ j < y.length - 1, y.getD (j+1) 0 < y.getD j 0) →
        ∀ j < d.length, d.getD j 0 ≤ 0) := by
  have hstrict := (strictIncr_iff x).mpr hinc
  refine ⟨dpchim3 x y, dpchim_eq_ok3 hlen hn hstrict, ?_, ?_⟩
  · intro hymono j hj
    have hdel : ∀ t, t + 1 < x.length → 0 < delAt x y t := by
      intro t ht
      refine div_pos ?_ (hAt_pos hinc ht)
      have := hymono t (by omega)
      linarith
    rw [dpchim3_length x y hn] at hj
    rcases Nat.eq_zero_or_pos j with hj0 | hjpos
    · subst hj0
      rw [dpchim3_getD_zero x y hn]
      exact endLeft_nonneg (hdel 0 (by omega)) (hdel 1 (by omega))
    · by_cases hjlast : j = x.length - 1
      · rw [hjlast, dpchim3_getD_last x y hn]
        exact endRightSt_nonneg (hdel (x.length - 3) (by omega))
          (hdel (x.length - 2) (by omega))
      · rw [dpchim3_getD_interior x y hn (by omega) (by omega)]
        unfold islope
        exact (brodlie_pos (hAt_pos hinc (by omega)) (hAt_pos hinc (by omega))
          (hdel (j-1) (by omega)) (hdel j (by omega))).1.le
  · intro hymono j hj
    have hdel : ∀ t, t + 1 < x.length → delAt x y t < 0 := by
      intro t ht
      refine div_neg_of_neg_of_pos ?_ (hAt_pos hinc ht)
      have := hymono t (by omega)
      linarith
    rw [dpchim3_length x y hn] at hj
    rcases Nat.eq_zero_or_pos j with hj0 | hjpos
    · subst hj0
      rw [dpchim3_getD_zero x y hn]
      exact endLeft_nonpos (hdel 0 (by omega)) (hdel 1 (by omega))
    · by_cases hjlast : j = x.length - 1
      · rw [hjlast, dpchim3_getD_last x y hn]
        exact endRightSt_nonpos (hdel (x.length - 3) (by omega))
          (hdel (x.length - 2) (by omega))
      · rw [dpchim3_getD_interior x y hn (by omega) (by omega)]
        unfold islope
        exact (brodlie_neg (hAt_pos hinc (by omega)) (hAt_pos hinc (by omega))
          (hdel (j-1) (by omega)) (hdel j (by omega))).1.le

/-- Witness for C3: x = [0,1,2], y = [0,1,3] (strictly increasing data). -/
theorem claim_c3_witness :
    ∃ d, dpchim [0, 1, 2] [0, 1, 3] = Except.ok d ∧
      ((∀ j < ([0, 1, 3] : List ℚ).length - 1,
          ([0, 1, 3] : List ℚ).getD j 0 < ([0, 1, 3] : List ℚ).getD (j+1) 0) →
        ∀ j < d.length, 0 ≤ d.getD j 0) ∧
      ((∀ j < ([0, 1, 3] : List ℚ).length - 1,
          ([0, 1, 3] : List ℚ).getD (j+1) 0 < ([0, 1, 3] : List ℚ).getD j 0) →
        ∀ j < d.length, d.getD j 0 ≤ 0) :=
  claim_c3 [0, 1, 2] [0, 1, 3] (by decide) (by decide) (by decide)

/-- C5: The derivative estimator fails exactly when the x and y lengths
mismatch, fewer than 2 points are supplied, or x is not strictly increasing;
no partial result is returned (the result is a single `Except`), and on valid
input the returned slope sequence has length equal to the knot count. -/
theorem claim_c5 (x y : List ℚ) :
    ((∃ e, dpchim x y = Except.error e)
      ↔ ¬(x.length = y.length ∧ 2 ≤ x.length ∧
          (∀ j < x.length - 1, x.getD j 0 < x.getD (j+1) 0)))
    ∧ (∀ d, dpchim x y = Except.ok d → d.length = x.length) := by
  constructor
  · constructor
    · rintro ⟨e, he⟩ ⟨h1, h2, h3⟩
      obtain ⟨d, hd⟩ := (dpchim_ok_iff x y).mpr ⟨h1, h2, (strictIncr_iff x).mpr h3⟩
      rw [he] at hd
      exact absurd hd (by simp)
    · intro hnot
      rcases hE : dpchim x y with e | d
      · exact ⟨e, rfl⟩
      · obtain ⟨h1, h2, h3⟩ := (dpchim_ok_iff x y).mp ⟨d, hE⟩
        exact absurd ⟨h1, h2, (strictIncr_iff x).mp h3⟩ hnot
  · intro d hd
    exact dpchim_length hd

/-- Witness for C5: a length mismatch is rejected, and a valid 2-point input
yields 2 slopes. -/
theorem claim_c5_witness :
    (∃ e, dpchim [(1:ℚ), 2] [1, 2, 3] = Except.error e)
      ∧ ([(1:ℚ), 1] : List ℚ).length = ([(0:ℚ), 1] : List ℚ).length :=
  ⟨(claim_c5 [1, 2] [1, 2, 3]).1.mpr (by decide),
   (claim_c5 [0, 1] [5, 6]).2 [1, 1] (by norm_num [dpchim, strictIncr])⟩

/-- C8: For every knot sequence of exactly 2 points with strictly increasing
x, the derivative estimator returns two slopes, both exactly equal to the
single secant slope (y1-y0)/(x1-x0). -/
theorem claim_c8 (x0 x1 y0 y1 : ℚ) (hinc : x0 < x1) :
    dpchim [x0, x1] [y0, y1]
      = Except.ok [(y1 - y0) / (x1 - x0), (y1 - y0) / (x1 - x0)] := by
  have hstrict : strictIncr [x0, x1] = true := by
    simp only [strictIncr]
    rw [if_neg (not_le.mpr hinc)]
  exact dpchim_eq_ok2 rfl rfl hstrict

/-- Witness for C8 at x = [0,1], y = [0,1]. -/
theorem claim_c8_witness :
    dpchim [(0:ℚ), 1] [0, 1]
      = Except.ok [((1:ℚ) - 0) / (1 - 0), ((1:ℚ) - 0) / (1 - 0)] :=
  claim_c8 0 1 0 1 (by decide)

/-- C10: For every ascending-sorted array and every value v, `lowerBound`
returns the smallest index whose element is not less than v (the array length
when every element is less than v), and the result lies in [0, length]. -/
theorem claim_c10 (arr : List ℚ) (v : ℚ)
    (hsorted : ∀ j < arr.length - 1, arr.getD j 0 ≤ arr.getD (j+1) 0) :
    lowerBound arr v ≤ arr.length
      ∧ (∀ j < lowerBound arr v, arr.getD j 0 < v)
      ∧ (∀ j, lowerBound arr v ≤ j → j < arr.length → v ≤ arr.getD j 0) :=
  ⟨lowerBound_le_length arr v, (lowerBound_spec arr v hsorted).1,
    (lowerBound_spec arr v hsorted).2⟩

/-- Witness for C10 at arr = [1,3,5], v = 4 (lowerBound returns 2). -/
theorem claim_c10_witness :
    lowerBound [1, 3, 5] 4 ≤ ([1, 3, 5] : List ℚ).length
      ∧ (∀ j < lowerBound [1, 3, 5] 4, ([1, 3, 5] : List ℚ).getD j 0 < 4)
      ∧ (∀ j, lowerBound [1, 3, 5] 4 ≤ j → j < ([1, 3, 5] : List ℚ).length →
          4 ≤ ([1, 3, 5] : List ℚ).getD j 0) :=
  claim_c10 [1, 3, 5] 4 (by decide)

/-- C4 counterexample: the single (trivially sorted) query -1 lies below
x0 = 0; the evaluator raises no error but leaves the output slot unassigned
(`none`, JS `undefined`) instead of extrapolating with the nearest interval's
polynomial. -/
theorem claim_c4_counterexample :
    piecewiseCubic [0, 1] [0, 1] [1, 1] [-1] = [none] := by decide

/-- C4 amended: for a sorted ascending query sequence, a query outside
[x0, x(n-1)] raises no error and the output still has one slot per query, but
the slot of an out-of-range query is left unassigned (none) rather than
extrapolated. -/
theorem claim_c4_amended (x y m xI : List ℚ)
    (hx : ∀ j < x.length - 1, x.getD j 0 < x.getD (j+1) 0)
    (hq : ∀ j < xI.length - 1, xI.getD j 0 ≤ xI.getD (j+1) 0)
    (k : Nat) (hk : k < xI.length)
    (hout : xI.getD k 0 < x.getD 0 0 ∨ x.getD (x.length - 1) 0 < xI.getD k 0) :
    (piecewiseCubic x y m xI).length = xI.length
      ∧ (piecewiseCubic x y m xI).getD k none = none :=
  ⟨piecewiseCubic_length x y m xI,
   piecewiseCubic_getD_outrange y m hx hq hk hout⟩

/-- Witness for the amended C4 at x = [0,1], query -1. -/
theorem claim_c4_amended_witness :
    (piecewiseCubic [0, 1] [0, 1] [1, 1] [-1]).length = ([-1] : List ℚ).length
      ∧ (piecewiseCubic [0, 1] [0, 1] [1, 1] [-1]).getD 0 none = none :=
  claim_c4_amended [0, 1] [0, 1] [1, 1] [-1] (by decide) (by decide) 0
    (by decide) (Or.inl (by decide))

/-- C6: For every valid knot sequence (x, y) and its computed slopes,
evaluating the piecewise evaluator at any knot's own x-value returns that
knot's y-value exactly, including the first and last knot. -/
theorem claim_c6 (x y : List ℚ) (k : Nat)
    (hlen : x.length = y.length) (hn : 2 ≤ x.length)
    (hinc : ∀ j < x.length - 1, x.getD j 0 < x.getD (j+1) 0)
    (hk : k < x.length) :
    ∃ d, dpchim x y = Except.ok d ∧
      piecewiseCubic x y d [x.getD k 0] = [some (y.getD k 0)] := by
  obtain ⟨d, hd⟩ := (dpchim_ok_iff x y).mpr ⟨hlen, hn, (strictIncr_iff x).mpr hinc⟩
  refine ⟨d, hd, ?_⟩
  have hxle := adj_le_of_adj_lt hinc
  refine eq_single_of_length_one ?_ ?_
  · rw [piecewiseCubic_length]
    rfl
  · have h0 : ([x.getD k 0] : List ℚ).getD 0 0 = x.getD k 0 := rfl
    have hin := @piecewiseCubic_getD_inrange x [x.getD k 0] y d hinc hn
      (by intro j hj; simp at hj) 0 (by simp)
      (by rw [h0]; exact getD_mono_of_adj hxle (Nat.zero_le k) hk)
      (by rw [h0]; exact getD_mono_of_adj hxle (by omega) (by omega))
    rw [hin, h0, pchipValueAt_knot y d hinc hn hk]

/-- Witness for C6 at the spec's example: x = [1,2,3,4,5],
y = [1,7,11,14,28], k = 2, i.e. evaluate(3) = 11. -/
theorem claim_c6_witness :
    ∃ d, dpchim [1, 2, 3, 4, 5] [1, 7, 11, 14, 28] = Except.ok d ∧
      piecewiseCubic [1, 2, 3, 4, 5] [1, 7, 11, 14, 28] d
          [([1, 2, 3, 4, 5] : List ℚ).getD 2 0]
        = [some (([1, 7, 11, 14, 28] : List ℚ).getD 2 0)] :=
  claim_c6 [1, 2, 3, 4, 5] [1, 7, 11, 14, 28] 2 (by decide) (by decide)
    (by decide) (by decide)

/-- C7 counterexample: on knots x = [0,2,4], y = [0,2,0], slopes m = [0,0,0],
the unsorted query sequence [3,1] produces 0 in slot 0 (query 3 was assigned
to the first interval's polynomial by the binary search over the unsorted
query list) while the interpolated value for query 3 is 1; furthermore, for
the sorted query sequence [4,4] with a duplicated final knot the second
output slot is never assigned at all. -/
theorem claim_c7_counterexample :
    piecewiseCubic [0, 2, 4] [0, 2, 0] [0, 0, 0] [3, 1]
        ≠ [some (pchipValueAt [0, 2, 4] [0, 2, 0] [0, 0, 0] 3),
           some (pchipValueAt [0, 2, 4] [0, 2, 0] [0, 0, 0] 1)]
      ∧ (piecewiseCubic [0, 2, 4] [0, 2, 0] [0, 0, 0] [4, 4]).getD 1 none
          = none := by
  constructor
  · have h1 : piecewiseCubic [0, 2, 4] [0, 2, 0] [0, 0, 0] [3, 1]
        = [some 0, some 1] := by
      norm_num [piecewiseCubic, pcFold, fillInterval, writeAt, lowerBound,
        lowerBoundAux, adjRight, leftIdx, hermiteVal, List.range_succ]
    have h2 : pchipValueAt [0, 2, 4] [0, 2, 0] [0, 0, 0] 3 = 1 := by
      norm_num [pchipValueAt, containingInterval, hermiteVal, lowerBound,
        lowerBoundAux]
    rw [h1, h2]
    norm_num
  · decide

/-- C7 amended: for a query sequence sorted in strictly increasing order with
every query inside [x0, x(n-1)], the evaluator returns a sequence of length m
whose i-th element is exactly the interpolated value (Hermite cubic of the
containing interval) of the i-th query. -/
theorem claim_c7_amended (x y m xI : List ℚ) (hn : 2 ≤ x.length)
    (hx : ∀ j < x.length - 1, x.getD j 0 < x.getD (j+1) 0)
    (hq : ∀ j < xI.length - 1, xI.getD j 0 < xI.getD (j+1) 0)
    (hrange : ∀ k, k < xI.length → x.getD 0 0 ≤ xI.getD k 0
      ∧ xI.getD k 0 ≤ x.getD (x.length - 1) 0) :
    (piecewiseCubic x y m xI).length = xI.length
      ∧ ∀ k, k < xI.length → (piecewiseCubic x y m xI).getD k none
          = some (pchipValueAt x y m (xI.getD k 0)) :=
  ⟨piecewiseCubic_length x y m xI,
   fun k hk => piecewiseCubic_getD_inrange y m hx hn hq hk
     (hrange k hk).1 (hrange k hk).2⟩

/-- Witness for the amended C7 at x = [0,2,4], y = [0,2,0], m = [0,0,0],
queries [3]. -/
theorem claim_c7_amended_witness :
    (piecewiseCubic [0, 2, 4] [0, 2, 0] [0, 0, 0] [3]).length
        = ([3] : List ℚ).length
      ∧ ∀ k, k < ([3] : List ℚ).length →
          (piecewiseCubic [0, 2, 4] [0, 2, 0] [0, 0, 0] [3]).getD k none
            = some (pchipValueAt [0, 2, 4] [0, 2, 0] [0, 0, 0]
                (([3] : List ℚ).getD k 0)) :=
  claim_c7_amended [0, 2, 4] [0, 2, 0] [0, 0, 0] [3] (by decide) (by decide)
    (by decide) (by decide)

/-- C9 (the `Pchip.evaluate` half): the interpolant object's evaluate
operation preserves the scalar-vs-sequence shape of the query argument — a
scalar query returns a scalar result and a sequence of m queries returns a
sequence of m results.  The `pchip` wrapper, by contrast, is typed to accept
only query sequences (`xI: number[]`); the scalar call documented in the
README is not supported by the code (see RESULTS). -/
theorem claim_c9_evaluate_shape (p : Pchip) (q : ℚ) (qs : List ℚ) :
    (∃ r, p.evaluate (QueryArg.scalar q) = QueryRes.scalar r)
      ∧ (∃ rs, p.evaluate (QueryArg.seq qs) = QueryRes.seq rs
          ∧ rs.length = qs.length) :=
  ⟨⟨_, rfl⟩, ⟨_, rfl, piecewiseCubic_length _ _ _ _⟩⟩

end SlatecPchip
